import Mathlib

/-!
Verification of the meal ordering system (`main.py`).

The Python program is shallowly embedded: Python dictionaries mapping food
categories to integer counts become association lists (`Dict`), in-place
mutation becomes explicit state passing, and raised exceptions become an
`Option Err` component of each operation's result, returned together with
the state as it stands at the moment the exception is raised (Python
mutations performed before the raise survive it).
-/

namespace MealOrder

/-- The fixed set of food categories (the module-level string constants
`NORMAL`, `VEGETARIAN`, `GLUTEN_FREE`, `NUT_FREE`, `FISH_FREE`). -/
inductive Category where
  | normal
  | vegetarian
  | glutenFree
  | nutFree
  | fishFree
deriving DecidableEq, Repr, Fintype

/-- `OrderSystem.FOODTYPE`: the fixed iteration order over categories. -/
def FOODTYPE : List Category :=
  [.normal, .vegetarian, .glutenFree, .nutFree, .fishFree]

/-- A Python dict from category to count, as an insertion-ordered
association list (keys unique in every dict the program builds). -/
abbrev Dict := List (Category × Int)

/-- Python `d[c]` lookup (first entry with the key). -/
def dget : Dict → Category → Option Int
  | [], _ => none
  | (k, v) :: d, c => if k = c then some v else dget d c

/-- Lookup with default 0, for stating arithmetic facts. -/
def dval (d : Dict) (c : Category) : Int :=
  (dget d c).getD 0

/-- Python `d[c] = v`: update the entry in place if the key is present,
append `(c, v)` otherwise. -/
def dset : Dict → Category → Int → Dict
  | [], c, v => [(c, v)]
  | (k, w) :: d, c, v => if k = c then (k, v) :: d else (k, w) :: dset d c v

/-- Python `sum(d.values())`. -/
def sumVals (d : Dict) : Int :=
  (d.map Prod.snd).sum

/-- The exceptions the program can raise, with the data their message
format strings carry. -/
inductive Err where
  /-- `TypeError` from calling a non-callable (the sort key in
  `optimizeOrder` evaluates `x.checkFood()` although `checkFood` is a
  property returning a dict). -/
  | typeError
  /-- The message "The restaurant ... doesn't serve ..." from `Restaurant.addOrder`,
  carrying the restaurant name and the meal category. -/
  | unknownCategory (restName : String) (meal : Category)
  /-- The message "The order for ... is too much." from `Restaurant.addOrder`,
  carrying only the meal category. -/
  | insufficientStock (meal : Category)
  /-- The message "Order from team ... cannot be satisfied on food type ..."
  from `OrderSystem.optimizeOrder`, carrying the team name and the food
  type; note it carries no shortfall amount. -/
  | unsatisfiable (teamName : String) (foodType : Category)
deriving DecidableEq, Repr

/-- The `Restaurant` model class: `_name`, `_rate`, `_capacity`,
`_foodInStock`, `_orderHistory`. -/
structure Restaurant where
  name : String
  rate : Int
  capacity : Dict
  foodInStock : Dict
  orderHistory : List (String × Dict)
deriving DecidableEq, Repr

/-- `Restaurant.__init__`: stock starts as a copy of capacity, empty
history. -/
def Restaurant.init (name : String) (rate : Int) (capacity : Dict) : Restaurant :=
  ⟨name, rate, capacity, capacity, []⟩

/-- The `capacity` property setter: resets capacity and the stock copy,
but leaves `_orderHistory` untouched. -/
def Restaurant.setCapacity (r : Restaurant) (capacity : Dict) : Restaurant :=
  { r with capacity := capacity, foodInStock := capacity }

/-- The validation loop at the top of `Restaurant.addOrder`: first meal
not served yields the unknown-category error, a meal ordered above stock
yields the insufficient-stock error. -/
def validateOrder (restName : String) (stock : Dict) : Dict → Option Err
  | [] => none
  | (c, v) :: rest =>
    match dget stock c with
    | none => some (.unknownCategory restName c)
    | some s => if s < v then some (.insufficientStock c) else validateOrder restName stock rest

/-- The mutation loop of `Restaurant.addOrder`:
`self._foodInStock[meal] -= order[meal]` for every meal of the order. -/
def applyDec (stock : Dict) (order : Dict) : Dict :=
  order.foldl (fun st p => dset st p.1 (dval st p.1 - p.2)) stock

/-- `Restaurant.addOrder`: validate the whole order, then (only on full
success) decrement stock and append `(teamName, order)` to the history.
On failure the restaurant is returned unchanged (the Python method raises
before its first mutation). -/
def Restaurant.addOrder (r : Restaurant) (teamName : String) (order : Dict) :
    Restaurant × Option Err :=
  match validateOrder r.name r.foodInStock order with
  | some e => (r, some e)
  | none =>
    ({ r with
        foodInStock := applyDec r.foodInStock order,
        orderHistory := r.orderHistory ++ [(teamName, order)] }, none)

/-- The `Team` model class: `_name`, `_demand`, `_orderResult`. -/
structure Team where
  name : String
  demand : Dict
  orderResult : List (String × Dict)
deriving DecidableEq, Repr

/-- Sum of one category over a history of `(who, grant)` pairs. -/
def grantsSum (c : Category) (l : List (String × Dict)) : Int :=
  (l.map (fun p => dval p.2 c)).sum

/-- One iteration of the category loop inside `OrderSystem.optimizeOrder`:
if `foodType` is present in both the working demand and the restaurant's
stock, set `orderResult[foodType] = min(demand[foodType], stock[foodType])`
and decrement the working demand by that amount. `acc` is the pair
(orderResult, working demand). -/
def stepCat (stock : Dict) (acc : Dict × Dict) (c : Category) : Dict × Dict :=
  match dget acc.2 c, dget stock c with
  | some dv, some sv => (dset acc.1 c (min dv sv), dset acc.2 c (dv - min dv sv))
  | _, _ => acc

/-- The full category loop of `optimizeOrder` for one restaurant: fold
`stepCat` over `FOODTYPE` starting from an empty order result. Returns
(orderResult, updated working demand). -/
def buildOrder (demand stock : Dict) : Dict × Dict :=
  FOODTYPE.foldl (stepCat stock) ([], demand)

/-- The final loop of `optimizeOrder`: raise for the first food type whose
remaining working demand is positive. -/
def checkDemand (teamName : String) : Dict → Option Err
  | [] => none
  | (c, v) :: rest =>
    if 0 < v then some (.unsatisfiable teamName c) else checkDemand teamName rest

/-- Stable insertion for descending sort by rating: a restaurant from
earlier in the input goes in front of every equally-rated one. -/
def insertByRate (r : Restaurant) : List Restaurant → List Restaurant
  | [] => [r]
  | x :: xs => if x.rate ≤ r.rate then r :: x :: xs else x :: insertByRate r xs

/-- `restaurantList.sort(key = lambda x: x.rate, reverse = True)`: Python's
sort is stable, and `reverse = True` keeps equal-key elements in input
order, so this equals a stable descending insertion sort by rating. -/
def sortByRate : List Restaurant → List Restaurant
  | [] => []
  | r :: rs => insertByRate r (sortByRate rs)

/-- The restaurant loop of `optimizeOrder` over the already-sorted list.
Returns (final working demand, grants recorded to the team in order,
restaurant list after the loop, raised exception if any). A restaurant
whose total stock is 0 is skipped (`continue`); otherwise its order is
built and committed via `Restaurant.addOrder` then recorded on the team.
If `addOrder` raised, the loop stops there with state as mutated so far. -/
def allocLoop (teamName : String) (demand : Dict) :
    List Restaurant → Dict × List (String × Dict) × List Restaurant × Option Err
  | [] => (demand, [], [], none)
  | r :: rs =>
    if sumVals r.foodInStock = 0 then
      let out := allocLoop teamName demand rs
      (out.1, out.2.1, r :: out.2.2.1, out.2.2.2)
    else
      let ord := (buildOrder demand r.foodInStock).1
      let demand' := (buildOrder demand r.foodInStock).2
      match r.addOrder teamName ord with
      | (r', none) =>
        let out := allocLoop teamName demand' rs
        (out.1, (r.name, ord) :: out.2.1, r' :: out.2.2.1, out.2.2.2)
      | (r', some e) => (demand', [], r' :: rs, some e)

/-- `OrderSystem.optimizeOrder(team, restaurantList, chooseLargeRestWhenEqualRate)`.

With the tie-break flag set and a nonempty list, Python evaluates the sort
key `lambda x: (x.rate, sum(x.checkFood().values()))` for every element
before reordering; `checkFood` is a property, so `x.checkFood()` calls a
dict and raises `TypeError` with the list still in input order. Otherwise
the list is stably sorted descending by rating, the restaurant loop runs
on a copy of the team's demand, and the leftover-demand check runs once
after the loop. The returned triple is (team, restaurant list, error) as
they stand when the call returns or raises. -/
def optimizeOrder (team : Team) (restaurantList : List Restaurant)
    (chooseLargeRestWhenEqualRate : Bool) : Team × List Restaurant × Option Err :=
  if chooseLargeRestWhenEqualRate && !restaurantList.isEmpty then
    (team, restaurantList, some .typeError)
  else
    let sorted := sortByRate restaurantList
    let out := allocLoop team.name team.demand sorted
    let team' := { team with orderResult := team.orderResult ++ out.2.1 }
    match out.2.2.2 with
    | some e => (team', out.2.2.1, some e)
    | none => (team', out.2.2.1, checkDemand team.name out.1)

/-- `OrderSystem.processOrder`: pop the front team of the FIFO and allocate
it against the (shared, mutating) restaurant list until the FIFO is empty.
Returns (teams processed so far in order, teams left in the FIFO,
restaurant list, error). An exception from `optimizeOrder` propagates at
once, leaving the remaining teams unprocessed. -/
def processOrder (flag : Bool) :
    List Team → List Restaurant → List Team × List Team × List Restaurant × Option Err
  | [], rl => ([], [], rl, none)
  | t :: ts, rl =>
    match optimizeOrder t rl flag with
    | (t', rl', some e) => ([t'], ts, rl', some e)
    | (t', rl', none) =>
      let out := processOrder flag ts rl'
      (t' :: out.1, out.2.1, out.2.2.1, out.2.2.2)

/-- A dynamically-typed Python value, for modelling `OrderSystem.addTeam`
which dispatches on `isinstance`. -/
inductive PyVal where
  | teamVal (t : Team)
  | listVal (l : List PyVal)
  | strVal (s : String)
  | intVal (n : Int)
  | noneVal

/-- `isinstance(team, Team)`. -/
def isTeamVal : PyVal → Bool
  | .teamVal _ => true
  | _ => false

/-- `isinstance(team, list)`. -/
def isListVal : PyVal → Bool
  | .listVal _ => true
  | _ => false

/-- `OrderSystem.addTeam`: a `Team` argument is appended to the FIFO; a
list argument has each of its elements appended with no further check;
anything else falls through both `isinstance` branches and the method
returns with the FIFO unchanged, raising nothing. -/
def addTeam (fifo : List PyVal) (team : PyVal) : List PyVal :=
  match team with
  | .teamVal t => fifo ++ [.teamVal t]
  | .listVal l => fifo ++ l
  | _ => fifo

/-- Whether an exception is one of the two internal `addOrder` errors
(unknown category / insufficient stock), as opposed to the expected
unsatisfiable-demand failure, a `TypeError`, or no error. -/
def engineError : Option Err → Bool
  | some (.unknownCategory _ _) => true
  | some (.insufficientStock _) => true
  | _ => false

/-- Run a sequence of `addOrder` calls against one restaurant. A call
that raises leaves the restaurant unchanged (first component of
`addOrder`), so the fold covers arbitrary interleavings of failing and
succeeding commits. -/
def applyOrders (r : Restaurant) : List (String × Dict) → Restaurant
  | [] => r
  | (tn, o) :: rest => applyOrders (r.addOrder tn o).1 rest

/-- Total remaining stock of one category across a restaurant list. -/
def sumStocks (c : Category) (rs : List Restaurant) : Int :=
  (rs.map (fun r => dval r.foodInStock c)).sum

/-- How one pass of the restaurant loop relates a restaurant's state
before and after: skipped untouched when its total stock is zero,
otherwise exactly one `(teamName, grant)` entry is appended to its
history — even when the grant is empty or all-zero. -/
def commitRel (teamName : String) (r r' : Restaurant) : Prop :=
  (sumVals r.foodInStock = 0 → r' = r)
  ∧ (sumVals r.foodInStock ≠ 0 →
      ∃ g, r'.orderHistory = r.orderHistory ++ [(teamName, g)])

section DictLemmas

theorem dget_dset_self (d : Dict) (c : Category) (v : Int) :
    dget (dset d c v) c = some v := by
  induction d with
  | nil => simp [dset, dget]
  | cons p d ih =>
    by_cases h : p.1 = c
    · simp [dset, dget, h]
    · simp [dset, dget, h, ih]

theorem dget_dset_ne (d : Dict) (c c' : Category) (v : Int) (h : c ≠ c') :
    dget (dset d c v) c' = dget d c' := by
  induction d with
  | nil => simp [dset, dget, h]
  | cons p d ih =>
    by_cases hp : p.1 = c
    · simp [dset, dget, hp, h]
    · simp only [dset, hp, if_neg hp, dget]
      by_cases hp' : p.1 = c'
      · simp [hp']
      · simp [hp', ih]

theorem dget_mem (d : Dict) (c : Category) (v : Int) (h : dget d c = some v) :
    (c, v) ∈ d := by
  induction d with
  | nil => simp [dget] at h
  | cons p d ih =>
    by_cases hp : p.1 = c
    · simp only [dget, if_pos hp] at h
      cases p
      simp_all
    · simp only [dget, if_neg hp] at h
      exact List.mem_cons_of_mem _ (ih h)

theorem dget_isSome_iff (d : Dict) (c : Category) :
    (dget d c).isSome ↔ c ∈ d.map Prod.fst := by
  induction d with
  | nil => simp [dget]
  | cons p d ih =>
    by_cases hp : p.1 = c
    · simp [dget, hp]
    · simp only [dget, if_neg hp, List.map_cons, List.mem_cons, ih]
      constructor
      · exact Or.inr
      · rintro (h | h)
        · exact absurd h.symm hp
        · exact h

theorem dget_eq_none_iff (d : Dict) (c : Category) :
    dget d c = none ↔ c ∉ d.map Prod.fst := by
  rw [← dget_isSome_iff, Option.isSome_iff_exists]
  cases dget d c <;> simp

theorem mem_dget_nodup (d : Dict) (c : Category) (v : Int)
    (hnd : (d.map Prod.fst).Nodup) (h : (c, v) ∈ d) : dget d c = some v := by
  induction d with
  | nil => simp at h
  | cons p d ih =>
    simp only [List.map_cons, List.nodup_cons] at hnd
    rcases List.mem_cons.mp h with h | h
    · subst h
      simp [dget]
    · have hc : c ∈ d.map Prod.fst := List.mem_map_of_mem Prod.fst h
      have hp : p.1 ≠ c := fun hpc => hnd.1 (hpc ▸ hc)
      simp only [dget, if_neg hp]
      exact ih hnd.2 h

theorem dset_keys_of_mem (d : Dict) (c : Category) (v : Int)
    (h : c ∈ d.map Prod.fst) :
    (dset d c v).map Prod.fst = d.map Prod.fst := by
  induction d with
  | nil => simp at h
  | cons p d ih =>
    by_cases hp : p.1 = c
    · simp [dset, hp]
    · simp only [List.map_cons, List.mem_cons] at h
      rcases h with h | h
      · exact absurd h.symm hp
      · simp [dset, hp, ih h]

theorem mem_dset (d : Dict) (c : Category) (v : Int) (p : Category × Int)
    (h : p ∈ dset d c v) : p ∈ d ∨ p = (c, v) := by
  induction d with
  | nil => simp [dset] at h; simp [h]
  | cons q d ih =>
    by_cases hq : q.1 = c
    · simp only [dset, if_pos hq, List.mem_cons] at h
      rcases h with h | h
      · right; rw [h, ← hq]
      · left; exact List.mem_cons_of_mem _ h
    · simp only [dset, if_neg hq, List.mem_cons] at h
      rcases h with h | h
      · left; simp [h]
      · rcases ih h with h | h
        · left; exact List.mem_cons_of_mem _ h
        · right; exact h

theorem dset_nodup (d : Dict) (c : Category) (v : Int)
    (hnd : (d.map Prod.fst).Nodup) : ((dset d c v).map Prod.fst).Nodup := by
  by_cases h : c ∈ d.map Prod.fst
  · rw [dset_keys_of_mem d c v h]; exact hnd
  · have : (dset d c v).map Prod.fst = d.map Prod.fst ++ [c] := by
      clear hnd
      induction d with
      | nil => simp [dset]
      | cons p d ih =>
        simp only [List.map_cons, List.mem_cons] at h
        push_neg at h
        simp [dset, h.1, Ne.symm h.1, ih h.2]
    rw [this]
    simp [List.nodup_append, hnd, h]

end DictLemmas

theorem dval_eq_of_dget (d d' : Dict) (c : Category) (h : dget d c = dget d' c) :
    dval d c = dval d' c := by
  rw [dval, dval, h]

section BuildOrderLemmas

theorem stepCat_ord_ne (stock : Dict) (acc : Dict × Dict) (c c' : Category)
    (h : c ≠ c') : dget (stepCat stock acc c).1 c' = dget acc.1 c' := by
  cases hd : dget acc.2 c <;> cases hs : dget stock c <;>
    simp [stepCat, hd, hs, dget_dset_ne _ _ _ _ h]

theorem stepCat_dem_ne (stock : Dict) (acc : Dict × Dict) (c c' : Category)
    (h : c ≠ c') : dget (stepCat stock acc c).2 c' = dget acc.2 c' := by
  cases hd : dget acc.2 c <;> cases hs : dget stock c <;>
    simp [stepCat, hd, hs, dget_dset_ne _ _ _ _ h]

theorem stepCat_dem_keys (stock : Dict) (acc : Dict × Dict) (c : Category) :
    (stepCat stock acc c).2.map Prod.fst = acc.2.map Prod.fst := by
  cases hd : dget acc.2 c <;> cases hs : dget stock c <;> simp [stepCat, hd, hs]
  case some.some dv sv =>
    exact dset_keys_of_mem _ _ _
      ((dget_isSome_iff acc.2 c).mp (by simp [hd]))

theorem stepCat_self (stock : Dict) (acc : Dict × Dict) (c : Category)
    (hord : dget acc.1 c = none) :
    dval (stepCat stock acc c).1 c = dval acc.2 c - dval (stepCat stock acc c).2 c
    ∧ (0 ≤ dval acc.2 c → 0 ≤ dval (stepCat stock acc c).2 c) := by
  cases hd : dget acc.2 c <;> cases hs : dget stock c
  case some.some dv sv =>
    have h1 : dval (stepCat stock acc c).1 c = min dv sv := by
      simp [stepCat, hd, hs, dval, dget_dset_self]
    have h2 : dval (stepCat stock acc c).2 c = dv - min dv sv := by
      simp [stepCat, hd, hs, dval, dget_dset_self]
    have hdv : dval acc.2 c = dv := by simp [dval, hd]
    refine ⟨?_, ?_⟩
    · rw [h1, h2, hdv]; ring
    · intro _
      rw [h2]
      exact Int.sub_nonneg.mpr (min_le_left dv sv)
  all_goals
    refine ⟨?_, fun h => ?_⟩ <;> simp [stepCat, hd, hs, dval, hord] at * <;> omega

theorem stepCat_ord_entries (stock : Dict) (acc : Dict × Dict) (c : Category)
    (h : ∀ p ∈ acc.1, ∃ sv, dget stock p.1 = some sv ∧ p.2 ≤ sv) :
    ∀ p ∈ (stepCat stock acc c).1, ∃ sv, dget stock p.1 = some sv ∧ p.2 ≤ sv := by
  cases hd : dget acc.2 c <;> cases hs : dget stock c <;> simp only [stepCat, hd, hs] <;>
    try exact h
  case some.some dv sv =>
    intro p hp
    rcases mem_dset _ _ _ _ hp with hp | hp
    · exact h p hp
    · subst hp
      exact ⟨sv, hs, min_le_right dv sv⟩

theorem stepCat_ord_nodup (stock : Dict) (acc : Dict × Dict) (c : Category)
    (h : (acc.1.map Prod.fst).Nodup) :
    ((stepCat stock acc c).1.map Prod.fst).Nodup := by
  cases hd : dget acc.2 c <;> cases hs : dget stock c <;> simp only [stepCat, hd, hs] <;>
    try exact h
  case some.some dv sv => exact dset_nodup _ _ _ h

theorem foldl_stepCat_ne (stock : Dict) (l : List Category) (acc : Dict × Dict)
    (c : Category) (h : c ∉ l) :
    dget (l.foldl (stepCat stock) acc).1 c = dget acc.1 c
    ∧ dget (l.foldl (stepCat stock) acc).2 c = dget acc.2 c := by
  induction l generalizing acc with
  | nil => exact ⟨rfl, rfl⟩
  | cons c' l ih =>
    simp only [List.mem_cons, not_or] at h
    rw [List.foldl_cons]
    have := ih (stepCat stock acc c') h.2
    refine ⟨?_, ?_⟩
    · rw [this.1, stepCat_ord_ne stock acc c' c (fun he => h.1 he.symm)]
    · rw [this.2, stepCat_dem_ne stock acc c' c (fun he => h.1 he.symm)]

theorem foldl_stepCat_dem_keys (stock : Dict) (l : List Category) (acc : Dict × Dict) :
    (l.foldl (stepCat stock) acc).2.map Prod.fst = acc.2.map Prod.fst := by
  induction l generalizing acc with
  | nil => rfl
  | cons c l ih => rw [List.foldl_cons, ih, stepCat_dem_keys]

theorem foldl_stepCat_entries (stock : Dict) (l : List Category) (acc : Dict × Dict)
    (h : ∀ p ∈ acc.1, ∃ sv, dget stock p.1 = some sv ∧ p.2 ≤ sv) :
    ∀ p ∈ (l.foldl (stepCat stock) acc).1, ∃ sv, dget stock p.1 = some sv ∧ p.2 ≤ sv := by
  induction l generalizing acc with
  | nil => exact h
  | cons c l ih => exact ih _ (stepCat_ord_entries stock acc c h)

theorem foldl_stepCat_nodup (stock : Dict) (l : List Category) (acc : Dict × Dict)
    (h : (acc.1.map Prod.fst).Nodup) :
    (((l.foldl (stepCat stock) acc).1).map Prod.fst).Nodup := by
  induction l generalizing acc with
  | nil => exact h
  | cons c l ih => exact ih _ (stepCat_ord_nodup stock acc c h)

theorem foldl_stepCat_split (stock dem : Dict) (l₁ l₂ : List Category) (c : Category)
    (h₁ : c ∉ l₁) (h₂ : c ∉ l₂) :
    dval ((l₁ ++ c :: l₂).foldl (stepCat stock) ([], dem)).1 c
      = dval dem c - dval ((l₁ ++ c :: l₂).foldl (stepCat stock) ([], dem)).2 c
    ∧ (0 ≤ dval dem c →
        0 ≤ dval ((l₁ ++ c :: l₂).foldl (stepCat stock) ([], dem)).2 c) := by
  rw [List.foldl_append, List.foldl_cons]
  have hl₁ := foldl_stepCat_ne stock l₁ ([], dem) c h₁
  have hord : dget (l₁.foldl (stepCat stock) ([], dem)).1 c = none := by
    rw [hl₁.1]; rfl
  have hstep := stepCat_self stock (l₁.foldl (stepCat stock) ([], dem)) c hord
  have hl₂ := foldl_stepCat_ne stock l₂
    (stepCat stock (l₁.foldl (stepCat stock) ([], dem)) c) c h₂
  have e1 := dval_eq_of_dget _ _ c hl₂.1
  have e2 := dval_eq_of_dget _ _ c hl₂.2
  have edem : dval (l₁.foldl (stepCat stock) ([], dem)).2 c = dval dem c :=
    dval_eq_of_dget _ _ c hl₁.2
  refine ⟨?_, fun h => ?_⟩
  · rw [e1, e2, hstep.1, edem]
  · rw [e2]
    exact hstep.2 (edem ▸ h)

theorem buildOrder_dval (dem stock : Dict) (c : Category) :
    dval (buildOrder dem stock).1 c = dval dem c - dval (buildOrder dem stock).2 c
    ∧ (0 ≤ dval dem c → 0 ≤ dval (buildOrder dem stock).2 c) := by
  cases c
  case normal =>
    have h := foldl_stepCat_split stock dem []
      [.vegetarian, .glutenFree, .nutFree, .fishFree] .normal (by decide) (by decide)
    simpa [buildOrder, FOODTYPE] using h
  case vegetarian =>
    have h := foldl_stepCat_split stock dem [.normal]
      [.glutenFree, .nutFree, .fishFree] .vegetarian (by decide) (by decide)
    simpa [buildOrder, FOODTYPE] using h
  case glutenFree =>
    have h := foldl_stepCat_split stock dem [.normal, .vegetarian]
      [.nutFree, .fishFree] .glutenFree (by decide) (by decide)
    simpa [buildOrder, FOODTYPE] using h
  case nutFree =>
    have h := foldl_stepCat_split stock dem [.normal, .vegetarian, .glutenFree]
      [.fishFree] .nutFree (by decide) (by decide)
    simpa [buildOrder, FOODTYPE] using h
  case fishFree =>
    have h := foldl_stepCat_split stock dem [.normal, .vegetarian, .glutenFree, .nutFree]
      [] .fishFree (by decide) (by decide)
    simpa [buildOrder, FOODTYPE] using h

theorem buildOrder_dem_keys (dem stock : Dict) :
    (buildOrder dem stock).2.map Prod.fst = dem.map Prod.fst :=
  foldl_stepCat_dem_keys stock FOODTYPE ([], dem)

theorem buildOrder_ord_entries (dem stock : Dict) :
    ∀ p ∈ (buildOrder dem stock).1, ∃ sv, dget stock p.1 = some sv ∧ p.2 ≤ sv :=
  foldl_stepCat_entries stock FOODTYPE ([], dem) (by simp)

theorem buildOrder_ord_nodup (dem stock : Dict) :
    (((buildOrder dem stock).1).map Prod.fst).Nodup :=
  foldl_stepCat_nodup stock FOODTYPE ([], dem) (by simp)

end BuildOrderLemmas

section AddOrderLemmas

theorem validateOrder_none_iff (n : String) (stock order : Dict) :
    validateOrder n stock order = none ↔
      ∀ p ∈ order, ∃ s, dget stock p.1 = some s ∧ p.2 ≤ s := by
  induction order with
  | nil => simp [validateOrder]
  | cons p rest ih =>
    obtain ⟨c, v⟩ := p
    simp only [validateOrder]
    cases hs : dget stock c with
    | none =>
      constructor
      · intro h; cases h
      · intro h
        rcases h (c, v) (List.mem_cons_self _ _) with ⟨s, hsome, _⟩
        rw [hs] at hsome
        cases hsome
    | some s =>
      by_cases hv : s < v
      · simp only [if_pos hv]
        constructor
        · intro h; cases h
        · intro h
          rcases h (c, v) (List.mem_cons_self _ _) with ⟨s', hsome, hle⟩
          rw [hs] at hsome
          injection hsome with hss
          omega
      · simp only [if_neg hv, ih]
        constructor
        · intro h q hq
          rcases List.mem_cons.mp hq with hq | hq
          · subst hq
            exact ⟨s, hs, by omega⟩
          · exact h q hq
        · intro h q hq
          exact h q (List.mem_cons_of_mem _ hq)

theorem validateOrder_some (n : String) (stock order : Dict) (e : Err)
    (h : validateOrder n stock order = some e) :
    (∃ c, e = .unknownCategory n c ∧ dget stock c = none ∧ c ∈ order.map Prod.fst)
    ∨ (∃ c g s, e = .insufficientStock c ∧ (c, g) ∈ order ∧ dget stock c = some s ∧ s < g) := by
  induction order with
  | nil => cases h
  | cons p rest ih =>
    obtain ⟨c, v⟩ := p
    rw [validateOrder] at h
    split at h
    · rename_i hs
      injection h with h
      subst h
      exact Or.inl ⟨c, rfl, hs, by simp⟩
    · rename_i s hs
      split at h
      · rename_i hv
        injection h with h
        subst h
        exact Or.inr ⟨c, v, s, rfl, List.mem_cons_self _ _, hs, hv⟩
      · rename_i hv
        rcases ih h with ⟨c', he, hn, hm⟩ | ⟨c', g, s', he, hm, hsome, hlt⟩
        · exact Or.inl ⟨c', he, hn, by simp [hm]⟩
        · exact Or.inr ⟨c', g, s', he, List.mem_cons_of_mem _ hm, hsome, hlt⟩

theorem applyDec_dget_not_mem (stock order : Dict) (c : Category)
    (h : c ∉ order.map Prod.fst) :
    dget (applyDec stock order) c = dget stock c := by
  induction order generalizing stock with
  | nil => rfl
  | cons p rest ih =>
    simp only [List.map_cons, List.mem_cons, not_or] at h
    have hstep : applyDec stock (p :: rest)
        = applyDec (dset stock p.1 (dval stock p.1 - p.2)) rest := rfl
    rw [hstep, ih _ h.2, dget_dset_ne _ _ _ _ (fun he => h.1 he.symm)]

theorem applyDec_dval (stock order : Dict) (hnd : (order.map Prod.fst).Nodup)
    (c : Category) :
    dval (applyDec stock order) c = dval stock c - dval order c := by
  induction order generalizing stock with
  | nil => simp [applyDec, dval, dget]
  | cons p rest ih =>
    obtain ⟨k, v⟩ := p
    simp only [List.map_cons, List.nodup_cons] at hnd
    have hstep : applyDec stock ((k, v) :: rest)
        = applyDec (dset stock k (dval stock k - v)) rest := rfl
    by_cases hk : k = c
    · subst hk
      rw [hstep]
      have h1 : dget (applyDec (dset stock k (dval stock k - v)) rest) k
          = dget (dset stock k (dval stock k - v)) k :=
        applyDec_dget_not_mem _ _ _ hnd.1
      rw [dval, h1, dget_dset_self]
      have h2 : dval ((k, v) :: rest) k = v := by simp [dval, dget]
      rw [h2]
      rfl
    · rw [hstep, ih _ hnd.2]
      have h1 : dval (dset stock k (dval stock k - v)) c = dval stock c :=
        dval_eq_of_dget _ _ _ (dget_dset_ne _ _ _ _ hk)
      have h2 : dval ((k, v) :: rest) c = dval rest c := by
        simp [dval, dget, hk]
      rw [h1, h2]

theorem addOrder_ok (r : Restaurant) (tn : String) (order : Dict)
    (h : validateOrder r.name r.foodInStock order = none) :
    r.addOrder tn order =
      ({ r with
          foodInStock := applyDec r.foodInStock order,
          orderHistory := r.orderHistory ++ [(tn, order)] }, none) := by
  rw [Restaurant.addOrder, h]

theorem addOrder_err (r : Restaurant) (tn : String) (order : Dict) (e : Err)
    (h : validateOrder r.name r.foodInStock order = some e) :
    r.addOrder tn order = (r, some e) := by
  rw [Restaurant.addOrder, h]

end AddOrderLemmas

section CheckDemandLemmas

theorem checkDemand_none (tn : String) (d : Dict) (h : checkDemand tn d = none) :
    ∀ p ∈ d, p.2 ≤ 0 := by
  induction d with
  | nil => simp
  | cons p rest ih =>
    rw [checkDemand] at h
    by_cases hv : 0 < p.2
    · rw [if_pos hv] at h; cases h
    · rw [if_neg hv] at h
      intro q hq
      rcases List.mem_cons.mp hq with hq | hq
      · subst hq; omega
      · exact ih h q hq

theorem checkDemand_some (tn : String) (d : Dict) (e : Err)
    (h : checkDemand tn d = some e) :
    ∃ c v, e = .unsatisfiable tn c ∧ (c, v) ∈ d ∧ 0 < v := by
  induction d with
  | nil => cases h
  | cons p rest ih =>
    rw [checkDemand] at h
    by_cases hv : 0 < p.2
    · rw [if_pos hv] at h
      injection h with h
      subst h
      exact ⟨p.1, p.2, rfl, by simp, hv⟩
    · rw [if_neg hv] at h
      rcases ih h with ⟨c, v, he, hm, hpos⟩
      exact ⟨c, v, he, List.mem_cons_of_mem _ hm, hpos⟩

theorem engineError_checkDemand (tn : String) (d : Dict) :
    engineError (checkDemand tn d) = false := by
  induction d with
  | nil => rfl
  | cons p rest ih =>
    rw [checkDemand]
    by_cases hv : 0 < p.2
    · rw [if_pos hv]; rfl
    · rw [if_neg hv]; exact ih

end CheckDemandLemmas

section SortLemmas

theorem insertByRate_perm (r : Restaurant) (l : List Restaurant) :
    List.Perm (insertByRate r l) (r :: l) := by
  induction l with
  | nil => exact List.Perm.refl _
  | cons x xs ih =>
    rw [insertByRate]
    by_cases h : x.rate ≤ r.rate
    · rw [if_pos h]
    · rw [if_neg h]
      exact (ih.cons x).trans (List.Perm.swap r x xs)

theorem sortByRate_perm (l : List Restaurant) : List.Perm (sortByRate l) l := by
  induction l with
  | nil => exact List.Perm.refl _
  | cons r rs ih =>
    rw [sortByRate]
    exact (insertByRate_perm r (sortByRate rs)).trans (ih.cons r)

theorem sumStocks_sortByRate (c : Category) (l : List Restaurant) :
    sumStocks c (sortByRate l) = sumStocks c l := by
  rw [sumStocks, sumStocks]
  exact ((sortByRate_perm l).map (fun r => dval r.foodInStock c)).sum_eq

end SortLemmas

section AllocLoopLemmas

theorem grantsSum_nil (c : Category) : grantsSum c [] = 0 := rfl

theorem grantsSum_cons (c : Category) (n : String) (g : Dict) (l : List (String × Dict)) :
    grantsSum c ((n, g) :: l) = dval g c + grantsSum c l := by
  simp [grantsSum]

theorem sumStocks_nil (c : Category) : sumStocks c [] = 0 := rfl

theorem sumStocks_cons (c : Category) (r : Restaurant) (rs : List Restaurant) :
    sumStocks c (r :: rs) = dval r.foodInStock c + sumStocks c rs := by
  simp [sumStocks]

/-- The grant built for a restaurant always passes that restaurant's own
validation: every category it mentions is in the stock, with an amount at
most the stock. -/
theorem validate_buildOrder (r : Restaurant) (dem : Dict) :
    validateOrder r.name r.foodInStock (buildOrder dem r.foodInStock).1 = none := by
  rw [validateOrder_none_iff]
  exact buildOrder_ord_entries dem r.foodInStock

theorem allocLoop_skip (tn : String) (dem : Dict) (r : Restaurant)
    (rs : List Restaurant) (hz : sumVals r.foodInStock = 0) :
    allocLoop tn dem (r :: rs) =
      ((allocLoop tn dem rs).1, (allocLoop tn dem rs).2.1,
       r :: (allocLoop tn dem rs).2.2.1, (allocLoop tn dem rs).2.2.2) := by
  rw [allocLoop, if_pos hz]

theorem allocLoop_commit (tn : String) (dem : Dict) (r : Restaurant)
    (rs : List Restaurant) (hz : ¬sumVals r.foodInStock = 0) :
    allocLoop tn dem (r :: rs) =
      ((allocLoop tn (buildOrder dem r.foodInStock).2 rs).1,
       (r.name, (buildOrder dem r.foodInStock).1)
         :: (allocLoop tn (buildOrder dem r.foodInStock).2 rs).2.1,
       { r with
           foodInStock := applyDec r.foodInStock (buildOrder dem r.foodInStock).1,
           orderHistory := r.orderHistory ++ [(tn, (buildOrder dem r.foodInStock).1)] }
         :: (allocLoop tn (buildOrder dem r.foodInStock).2 rs).2.2.1,
       (allocLoop tn (buildOrder dem r.foodInStock).2 rs).2.2.2) := by
  rw [allocLoop, if_neg hz]
  simp only [addOrder_ok r tn _ (validate_buildOrder r dem)]

/-- Combined invariant of the restaurant loop: it never raises (the
commits it performs always validate); the working demand decreases by
exactly the recorded grants, keeps its keys, and stays non-negative; the
restaurants' total stock decreases by exactly the recorded grants; each
restaurant is either skipped untouched (zero total stock) or gets exactly
one history entry; and the grants are recorded under the names of exactly
the non-skipped restaurants, in order. -/
theorem allocLoop_spec (tn : String) (rs : List Restaurant) :
    ∀ dem : Dict,
      (allocLoop tn dem rs).2.2.2 = none
      ∧ (∀ c, dval (allocLoop tn dem rs).1 c
            = dval dem c - grantsSum c (allocLoop tn dem rs).2.1)
      ∧ (allocLoop tn dem rs).1.map Prod.fst = dem.map Prod.fst
      ∧ (∀ c, 0 ≤ dval dem c → 0 ≤ dval (allocLoop tn dem rs).1 c)
      ∧ (∀ c, sumStocks c (allocLoop tn dem rs).2.2.1
            = sumStocks c rs - grantsSum c (allocLoop tn dem rs).2.1)
      ∧ List.Forall₂ (commitRel tn) rs (allocLoop tn dem rs).2.2.1
      ∧ (allocLoop tn dem rs).2.1.map Prod.fst
          = (rs.filter (fun r => !(sumVals r.foodInStock == 0))).map Restaurant.name := by
  induction rs with
  | nil =>
    intro dem
    refine ⟨rfl, ?_, rfl, ?_, ?_, List.Forall₂.nil, rfl⟩ <;>
      simp [allocLoop, grantsSum_nil, sumStocks_nil]
  | cons r rs ih =>
    intro dem
    by_cases hz : sumVals r.foodInStock = 0
    · rw [allocLoop_skip tn dem r rs hz]
      rcases ih dem with ⟨h1, h2, h3, h4, h5, h6, h7⟩
      refine ⟨h1, h2, h3, h4, ?_, ?_, ?_⟩
      · intro c
        rw [sumStocks_cons, sumStocks_cons, h5 c]
        ring
      · exact List.Forall₂.cons ⟨fun _ => rfl, fun hne => absurd hz hne⟩ h6
      · rw [List.filter_cons_of_neg (by simp [hz])]
        exact h7
    · rw [allocLoop_commit tn dem r rs hz]
      rcases ih (buildOrder dem r.foodInStock).2 with ⟨h1, h2, h3, h4, h5, h6, h7⟩
      have hbo := fun c => buildOrder_dval dem r.foodInStock c
      refine ⟨h1, ?_, ?_, ?_, ?_, ?_, ?_⟩
      · intro c
        rw [h2 c, grantsSum_cons]
        have := (hbo c).1
        omega
      · rw [h3, buildOrder_dem_keys]
      · intro c hc
        exact h4 c ((hbo c).2 hc)
      · intro c
        rw [sumStocks_cons, sumStocks_cons, h5 c, grantsSum_cons]
        have hap : dval (applyDec r.foodInStock (buildOrder dem r.foodInStock).1) c
            = dval r.foodInStock c - dval (buildOrder dem r.foodInStock).1 c :=
          applyDec_dval _ _ (buildOrder_ord_nodup dem r.foodInStock) c
        simp only [hap]
        ring
      · exact List.Forall₂.cons
          ⟨fun h => absurd h hz, fun _ => ⟨(buildOrder dem r.foodInStock).1, rfl⟩⟩ h6
      · rw [List.filter_cons_of_pos (by simp [hz])]
        simp only [List.map_cons, h7]

end AllocLoopLemmas

section OptimizeOrderLemmas

theorem bool_not_true {b : Bool} (h : ¬b = true) : b = false := by
  cases b
  · rfl
  · exact absurd rfl h

theorem optimizeOrder_typeError (team : Team) (rl : List Restaurant) (flag : Bool)
    (h : (flag && !rl.isEmpty) = true) :
    optimizeOrder team rl flag = (team, rl, some .typeError) := by
  rw [optimizeOrder, if_pos h]

theorem optimizeOrder_eq (team : Team) (rl : List Restaurant) (flag : Bool)
    (h : (flag && !rl.isEmpty) = false) :
    optimizeOrder team rl flag =
      ({ team with orderResult := team.orderResult
          ++ (allocLoop team.name team.demand (sortByRate rl)).2.1 },
       (allocLoop team.name team.demand (sortByRate rl)).2.2.1,
       checkDemand team.name (allocLoop team.name team.demand (sortByRate rl)).1) := by
  have herr := (allocLoop_spec team.name (sortByRate rl) team.demand).1
  simp [optimizeOrder, h, herr]

end OptimizeOrderLemmas

/-- C1: on an `optimizeOrder` run that returns without raising, for every
category of the team's original (non-negative) demand, the grants recorded
to the team during this run sum exactly to the original demand for that
category. -/
theorem demand_satisfaction (team : Team) (rl : List Restaurant) (flag : Bool)
    (hnn : ∀ c, 0 ≤ dval team.demand c)
    (hok : (optimizeOrder team rl flag).2.2 = none) :
    ∀ c v, dget team.demand c = some v →
      grantsSum c (((optimizeOrder team rl flag).1).orderResult.drop
        team.orderResult.length) = v := by
  intro c v hv
  by_cases hb : (flag && !rl.isEmpty) = true
  · rw [optimizeOrder_typeError team rl flag hb] at hok
    cases hok
  · have hb' : (flag && !rl.isEmpty) = false := bool_not_true hb
    rw [optimizeOrder_eq team rl flag hb'] at hok ⊢
    have hok' : checkDemand team.name
        (allocLoop team.name team.demand (sortByRate rl)).1 = none := hok
    show grantsSum c ((team.orderResult
        ++ (allocLoop team.name team.demand (sortByRate rl)).2.1).drop
          team.orderResult.length) = v
    rw [List.drop_left]
    rcases allocLoop_spec team.name (sortByRate rl) team.demand with
      ⟨-, h2, h3, h4, -, -, -⟩
    have hc : c ∈ ((allocLoop team.name team.demand (sortByRate rl)).1).map Prod.fst := by
      rw [h3]
      exact (dget_isSome_iff team.demand c).mp (by simp [hv])
    rcases Option.isSome_iff_exists.mp ((dget_isSome_iff _ c).mpr hc) with ⟨v', hv'⟩
    have hle : v' ≤ 0 :=
      checkDemand_none _ _ hok' (c, v') (dget_mem _ _ _ hv')
    have hge : 0 ≤ dval (allocLoop team.name team.demand (sortByRate rl)).1 c :=
      h4 c (hnn c)
    have hdv : dval (allocLoop team.name team.demand (sortByRate rl)).1 c = v' := by
      simp [dval, hv']
    have hdemv : dval team.demand c = v := by simp [dval, hv]
    have := h2 c
    omega

/-- C1 witness: a concrete successful run in which the single recorded
grant sums to the team's demand. -/
theorem demand_satisfaction_witness :
    grantsSum .normal
      (((optimizeOrder ⟨"t", [(.normal, 2)], []⟩
          [Restaurant.init "a" 5 [(.normal, 5)]] false).1).orderResult.drop 0) = 2 :=
  demand_satisfaction ⟨"t", [(.normal, 2)], []⟩
    [Restaurant.init "a" 5 [(.normal, 5)]] false
    (by decide) (by decide) .normal 2 (by decide)

/-- C7: the allocation engine never triggers `addOrder`'s unknown-category
or insufficient-stock errors: every grant it builds only mentions
categories of the restaurant's own stock, bounded by the remaining stock,
so the only errors out of `optimizeOrder` are the tie-break `TypeError`
and the unsatisfiable-demand failure. -/
theorem engine_commits_always_valid (team : Team) (rl : List Restaurant) (flag : Bool) :
    engineError (optimizeOrder team rl flag).2.2 = false := by
  by_cases hb : (flag && !rl.isEmpty) = true
  · rw [optimizeOrder_typeError team rl flag hb]
    rfl
  · have hb' : (flag && !rl.isEmpty) = false := bool_not_true hb
    rw [optimizeOrder_eq team rl flag hb']
    exact engineError_checkDemand _ _

/-- C8: `optimizeOrder` works on a copy of the demand dict: the team's
own demand attribute is identical after any call, raising or not. -/
theorem original_demand_preserved (team : Team) (rl : List Restaurant) (flag : Bool) :
    ((optimizeOrder team rl flag).1).demand = team.demand := by
  by_cases hb : (flag && !rl.isEmpty) = true
  · rw [optimizeOrder_typeError team rl flag hb]
  · have hb' : (flag && !rl.isEmpty) = false := bool_not_true hb
    rw [optimizeOrder_eq team rl flag hb']

/-- C3 counterexample: restaurant "a" has positive total stock (3 normal)
but nothing overlapping the team's vegetarian-only demand, so its grant
for this run is the empty dict — yet the run succeeds with the empty
grant committed to "a"'s history and recorded in the team's results,
contradicting the claim that an all-zero grant is not recorded. -/
theorem empty_grant_recorded :
    (optimizeOrder ⟨"t", [(.vegetarian, 2)], []⟩
        [Restaurant.init "a" 5 [(.normal, 3)], Restaurant.init "b" 3 [(.vegetarian, 2)]]
        false).2.2 = none
    ∧ (optimizeOrder ⟨"t", [(.vegetarian, 2)], []⟩
        [Restaurant.init "a" 5 [(.normal, 3)], Restaurant.init "b" 3 [(.vegetarian, 2)]]
        false).2.1.head? = some ⟨"a", 5, [(.normal, 3)], [(.normal, 3)], [("t", [])]⟩
    ∧ ((optimizeOrder ⟨"t", [(.vegetarian, 2)], []⟩
        [Restaurant.init "a" 5 [(.normal, 3)], Restaurant.init "b" 3 [(.vegetarian, 2)]]
        false).1).orderResult = [("a", []), ("b", [(.vegetarian, 2)])] := by
  decide

/-- C3 (amended): during `optimizeOrder` only a restaurant whose total
remaining stock is zero is skipped with nothing recorded; every
restaurant with nonzero total stock gets exactly one history entry for
this run — even when its grant is empty or all-zero — and the team
records grants under the names of exactly those restaurants, in order. -/
theorem grant_recording (team : Team) (rl : List Restaurant) :
    List.Forall₂ (commitRel team.name) (sortByRate rl)
      (optimizeOrder team rl false).2.1
    ∧ (((optimizeOrder team rl false).1).orderResult.drop
          team.orderResult.length).map Prod.fst
        = ((sortByRate rl).filter
            (fun r => !(sumVals r.foodInStock == 0))).map Restaurant.name := by
  rw [optimizeOrder_eq team rl false (by simp)]
  rcases allocLoop_spec team.name (sortByRate rl) team.demand with
    ⟨-, -, -, -, -, h6, h7⟩
  refine ⟨h6, ?_⟩
  show ((team.orderResult
      ++ (allocLoop team.name team.demand (sortByRate rl)).2.1).drop
        team.orderResult.length).map Prod.fst = _
  rw [List.drop_left]
  exact h7

/-- C4: with `chooseLargeRestWhenEqualRate = True` and a nonempty
restaurant list, `optimizeOrder` raises `TypeError` while evaluating the
sort key (it calls `x.checkFood()`, but `checkFood` is a property whose
value is a dict), instead of ordering equal-rated restaurants by
descending total stock. -/
theorem tie_break_flag_type_error :
    optimizeOrder ⟨"t", [(.normal, 1)], []⟩ [Restaurant.init "a" 5 [(.normal, 1)]] true
      = (⟨"t", [(.normal, 1)], []⟩, [Restaurant.init "a" 5 [(.normal, 1)]],
         some .typeError) := rfl

/-- C5 counterexample: two runs against the same restaurant whose
shortfalls differ (4 versus 8 vegetarian meals short) raise the very same
error value, so the unsatisfiable-demand error cannot identify the
shortfall amount, contradicting the claim that it does. -/
theorem unsat_error_carries_no_shortfall :
    (optimizeOrder ⟨"t", [(.vegetarian, 5)], []⟩
        [Restaurant.init "a" 5 [(.vegetarian, 1)]] false).2.2
      = some (.unsatisfiable "t" .vegetarian)
    ∧ (optimizeOrder ⟨"t", [(.vegetarian, 9)], []⟩
        [Restaurant.init "a" 5 [(.vegetarian, 1)]] false).2.2
      = (optimizeOrder ⟨"t", [(.vegetarian, 5)], []⟩
        [Restaurant.init "a" 5 [(.vegetarian, 1)]] false).2.2
    ∧ dval [(.vegetarian, 5)] .vegetarian
        - grantsSum .vegetarian (((optimizeOrder ⟨"t", [(.vegetarian, 5)], []⟩
            [Restaurant.init "a" 5 [(.vegetarian, 1)]] false).1).orderResult.drop 0) = 4
    ∧ dval [(.vegetarian, 9)] .vegetarian
        - grantsSum .vegetarian (((optimizeOrder ⟨"t", [(.vegetarian, 9)], []⟩
            [Restaurant.init "a" 5 [(.vegetarian, 1)]] false).1).orderResult.drop 0) = 8 := by
  decide

/-- C5 (amended): when `optimizeOrder` raises the unsatisfiable-demand
error, the error names the team and a category whose remaining shortfall
(original demand minus everything granted this run) is positive — but not
the shortfall amount itself; the check ran only after every restaurant of
the list was tried, and all commits made during the run remain in effect:
the restaurants' total stock is down by exactly the recorded grants. -/
theorem unsat_check_after_loop (team : Team) (rl : List Restaurant) (flag : Bool)
    (tn : String) (c : Category)
    (hnd : (team.demand.map Prod.fst).Nodup)
    (herr : (optimizeOrder team rl flag).2.2 = some (.unsatisfiable tn c)) :
    tn = team.name
    ∧ 0 < dval team.demand c
        - grantsSum c (((optimizeOrder team rl flag).1).orderResult.drop
            team.orderResult.length)
    ∧ (optimizeOrder team rl flag).2.1.length = rl.length
    ∧ ∀ c', sumStocks c' (optimizeOrder team rl flag).2.1
        = sumStocks c' rl
          - grantsSum c' (((optimizeOrder team rl flag).1).orderResult.drop
              team.orderResult.length) := by
  by_cases hb : (flag && !rl.isEmpty) = true
  · rw [optimizeOrder_typeError team rl flag hb] at herr
    injection herr with herr
    cases herr
  · have hb' : (flag && !rl.isEmpty) = false := bool_not_true hb
    rw [optimizeOrder_eq team rl flag hb'] at herr ⊢
    have herr' : checkDemand team.name
        (allocLoop team.name team.demand (sortByRate rl)).1
        = some (.unsatisfiable tn c) := herr
    rcases allocLoop_spec team.name (sortByRate rl) team.demand with
      ⟨-, h2, h3, -, h5, h6, -⟩
    rcases checkDemand_some _ _ _ herr' with ⟨c₀, v, he, hmem, hpos⟩
    have htn : tn = team.name ∧ c = c₀ := by
      injection he with he1 he2
      exact ⟨he1, he2⟩
    obtain ⟨htn1, htn2⟩ := htn
    subst htn2
    have hnd' : (((allocLoop team.name team.demand (sortByRate rl)).1).map Prod.fst).Nodup := by
      rw [h3]; exact hnd
    have hget : dget (allocLoop team.name team.demand (sortByRate rl)).1 c = some v :=
      mem_dget_nodup _ _ _ hnd' hmem
    have hdv : dval (allocLoop team.name team.demand (sortByRate rl)).1 c = v := by
      simp [dval, hget]
    refine ⟨htn1, ?_, ?_, ?_⟩
    · show 0 < dval team.demand c - grantsSum c ((team.orderResult
          ++ (allocLoop team.name team.demand (sortByRate rl)).2.1).drop
            team.orderResult.length)
      rw [List.drop_left]
      have := h2 c
      omega
    · show (allocLoop team.name team.demand (sortByRate rl)).2.2.1.length = rl.length
      rw [← h6.length_eq]
      exact (sortByRate_perm rl).length_eq
    · intro c'
      show sumStocks c' (allocLoop team.name team.demand (sortByRate rl)).2.2.1
          = sumStocks c' rl - grantsSum c' ((team.orderResult
              ++ (allocLoop team.name team.demand (sortByRate rl)).2.1).drop
                team.orderResult.length)
      rw [List.drop_left, h5 c', sumStocks_sortByRate]

/-- C5 (amended) witness: a concrete failing run — demand 5 vegetarian,
stock 1 — in which the remaining shortfall at the reported category is
positive. -/
theorem unsat_check_after_loop_witness :
    0 < dval (Team.mk "t" [(.vegetarian, 5)] []).demand .vegetarian
        - grantsSum .vegetarian
            (((optimizeOrder ⟨"t", [(.vegetarian, 5)], []⟩
                [Restaurant.init "a" 5 [(.vegetarian, 1)]] false).1).orderResult.drop
              (Team.mk "t" [(.vegetarian, 5)] []).orderResult.length) :=
  (unsat_check_after_loop ⟨"t", [(.vegetarian, 5)], []⟩
    [Restaurant.init "a" 5 [(.vegetarian, 1)]] false "t" .vegetarian
    (by decide) (by decide)).2.1

section ApplyOrdersLemmas

/-- Invariant of any sequence of `addOrder` calls: capacity is untouched,
the history only grows at the end, and per category the stock decreases
by exactly the sum of the newly recorded grants, never dropping below
zero (provided it started non-negative) nor increasing. Orders are
assumed to have non-negative amounts and unique keys, as Python dicts of
demand vectors do; failing calls change nothing. -/
theorem applyOrders_inv (l : List (String × Dict)) :
    ∀ r : Restaurant,
      (∀ p ∈ l, (∀ q ∈ p.2, 0 ≤ q.2) ∧ ((p.2.map Prod.fst)).Nodup) →
      (applyOrders r l).capacity = r.capacity
      ∧ ∃ h', (applyOrders r l).orderHistory = r.orderHistory ++ h'
          ∧ ∀ c, (0 ≤ dval r.foodInStock c →
                    0 ≤ dval (applyOrders r l).foodInStock c)
              ∧ dval (applyOrders r l).foodInStock c ≤ dval r.foodInStock c
              ∧ dval r.foodInStock c - dval (applyOrders r l).foodInStock c
                  = grantsSum c h' := by
  induction l with
  | nil =>
    intro r _
    exact ⟨rfl, [], by simp [applyOrders],
      fun c => ⟨fun h => h, le_refl _, by simp [applyOrders, grantsSum_nil]⟩⟩
  | cons p rest ih =>
    intro r hl
    obtain ⟨tn, o⟩ := p
    have ho := hl (tn, o) (List.mem_cons_self _ _)
    have hrest : ∀ q ∈ rest, (∀ q' ∈ q.2, 0 ≤ q'.2) ∧ ((q.2.map Prod.fst)).Nodup :=
      fun q hq => hl q (List.mem_cons_of_mem _ hq)
    rw [applyOrders]
    cases hv : validateOrder r.name r.foodInStock o with
    | some e =>
      have hr' : (r.addOrder tn o).1 = r := by rw [addOrder_err r tn o e hv]
      rw [hr']
      exact ih r hrest
    | none =>
      have hr' : (r.addOrder tn o).1 = { r with
          foodInStock := applyDec r.foodInStock o,
          orderHistory := r.orderHistory ++ [(tn, o)] } := by
        rw [addOrder_ok r tn o hv]
      rw [hr']
      rcases ih ({ r with
          foodInStock := applyDec r.foodInStock o,
          orderHistory := r.orderHistory ++ [(tn, o)] }) hrest with
        ⟨hcap, h', hhist, hprops⟩
      have hv' := (validateOrder_none_iff _ _ _).mp hv
      refine ⟨by rw [hcap], (tn, o) :: h', by rw [hhist]; simp, ?_⟩
      intro c
      have hap : dval (applyDec r.foodInStock o) c
          = dval r.foodInStock c - dval o c :=
        applyDec_dval _ _ ho.2 c
      have hg0 : 0 ≤ dval o c := by
        cases hg : dget o c with
        | none => simp [dval, hg]
        | some g =>
          have := ho.1 (c, g) (dget_mem _ _ _ hg)
          simpa [dval, hg] using this
      have hstk : 0 ≤ dval r.foodInStock c → 0 ≤ dval r.foodInStock c - dval o c := by
        intro hpos
        cases hg : dget o c with
        | none =>
          have h0 : dval o c = 0 := by simp [dval, hg]
          omega
        | some g =>
          rcases hv' (c, g) (dget_mem _ _ _ hg) with ⟨s, hs, hle⟩
          have h1 : dval r.foodInStock c = s := by simp [dval, hs]
          have h2 : dval o c = g := by simp [dval, hg]
          omega
      rcases hprops c with ⟨hp1, hp2, hp3⟩
      have hmid : dval ({ r with
          foodInStock := applyDec r.foodInStock o,
          orderHistory := r.orderHistory ++ [(tn, o)] } :
            Restaurant).foodInStock c = dval r.foodInStock c - dval o c := hap
      rw [hmid] at hp1 hp2 hp3
      refine ⟨fun hpos => hp1 (hstk hpos), by omega, ?_⟩
      rw [grantsSum_cons]
      omega

end ApplyOrdersLemmas

/-- C2 counterexample: commit an order of 2 normal meals, then reset
capacity through the setter. The setter resets stock to the new capacity
but keeps the old history, so capacity minus stock (0) no longer equals
the sum of the grants in the order history (2) — the conservation
equation of the claim fails after a capacity reset that follows commits. -/
theorem conservation_fails_after_reset :
    dval ((((Restaurant.init "r" 5 [(.normal, 5)]).addOrder "t"
        [(.normal, 2)]).1.setCapacity [(.normal, 5)]).capacity) .normal
      - dval ((((Restaurant.init "r" 5 [(.normal, 5)]).addOrder "t"
        [(.normal, 2)]).1.setCapacity [(.normal, 5)]).foodInStock) .normal
    ≠ grantsSum .normal ((((Restaurant.init "r" 5 [(.normal, 5)]).addOrder "t"
        [(.normal, 2)]).1.setCapacity [(.normal, 5)]).orderHistory) := by
  decide

/-- C2 (amended): starting from a state where stock equals capacity (as
after construction or a capacity reset), after any sequence of `addOrder`
calls with dict-shaped, non-negative orders, every category satisfies
`0 ≤ stock[c]`, `stock[c] ≤ capacity[c]`, and `capacity[c] - stock[c]`
equals the sum of the grants recorded since that starting state (for a
freshly constructed restaurant, that is its entire history; after a
reset, the pre-reset entries must be excluded, as the counterexample
shows). -/
theorem restaurant_conservation (r0 : Restaurant) (l : List (String × Dict))
    (hs : r0.foodInStock = r0.capacity)
    (hcap : ∀ c, 0 ≤ dval r0.capacity c)
    (hl : ∀ p ∈ l, (∀ q ∈ p.2, 0 ≤ q.2) ∧ ((p.2.map Prod.fst)).Nodup) :
    ∀ c, 0 ≤ dval (applyOrders r0 l).foodInStock c
      ∧ dval (applyOrders r0 l).foodInStock c ≤ dval (applyOrders r0 l).capacity c
      ∧ dval (applyOrders r0 l).capacity c - dval (applyOrders r0 l).foodInStock c
          = grantsSum c ((applyOrders r0 l).orderHistory.drop
              r0.orderHistory.length) := by
  rcases applyOrders_inv l r0 hl with ⟨hcap', h', hhist, hprops⟩
  intro c
  rcases hprops c with ⟨hp1, hp2, hp3⟩
  rw [hs] at hp1 hp2 hp3
  have hdrop : (applyOrders r0 l).orderHistory.drop r0.orderHistory.length = h' := by
    rw [hhist, List.drop_left]
  rw [hcap', hdrop]
  exact ⟨hp1 (hcap c), by omega, by omega⟩

/-- C2 (amended) witness: a freshly constructed restaurant with 3 normal
meals after one committed order of 2 satisfies all three conservation
facts. -/
theorem restaurant_conservation_witness :
    0 ≤ dval (applyOrders (Restaurant.init "r" 5 [(.normal, 3)])
        [("t", [(.normal, 2)])]).foodInStock .normal
    ∧ dval (applyOrders (Restaurant.init "r" 5 [(.normal, 3)])
        [("t", [(.normal, 2)])]).foodInStock .normal
      ≤ dval (applyOrders (Restaurant.init "r" 5 [(.normal, 3)])
        [("t", [(.normal, 2)])]).capacity .normal
    ∧ dval (applyOrders (Restaurant.init "r" 5 [(.normal, 3)])
        [("t", [(.normal, 2)])]).capacity .normal
      - dval (applyOrders (Restaurant.init "r" 5 [(.normal, 3)])
          [("t", [(.normal, 2)])]).foodInStock .normal
      = grantsSum .normal ((applyOrders (Restaurant.init "r" 5 [(.normal, 3)])
          [("t", [(.normal, 2)])]).orderHistory.drop
            (Restaurant.init "r" 5 [(.normal, 3)]).orderHistory.length) :=
  restaurant_conservation (Restaurant.init "r" 5 [(.normal, 3)])
    [("t", [(.normal, 2)])] rfl (by decide) (by decide) .normal

/-- C6: `Restaurant.addOrder` validates the whole grant before touching
any state: when it raises, the restaurant (stock and history) is
unchanged and the error is the matching one (unknown category when some
granted category is missing from the stock dict, insufficient stock when
some granted amount exceeds the remaining stock); when it returns, the
stock of every category dropped by exactly the granted amount and exactly
one `(teamId, grant)` entry was appended — never a partial application.
It does raise whenever some entry of the grant is invalid. -/
theorem addOrder_atomic (r : Restaurant) (tn : String) (order : Dict)
    (hnd : (order.map Prod.fst).Nodup) :
    (∀ e, (r.addOrder tn order).2 = some e →
        (r.addOrder tn order).1 = r
        ∧ ((∃ c, e = .unknownCategory r.name c ∧ dget r.foodInStock c = none
              ∧ c ∈ order.map Prod.fst)
          ∨ (∃ c g s, e = .insufficientStock c ∧ (c, g) ∈ order
              ∧ dget r.foodInStock c = some s ∧ s < g)))
    ∧ ((r.addOrder tn order).2 = none →
        ((r.addOrder tn order).1).orderHistory = r.orderHistory ++ [(tn, order)]
        ∧ ∀ c, dval ((r.addOrder tn order).1).foodInStock c
            = dval r.foodInStock c - dval order c)
    ∧ ((∃ p ∈ order, dget r.foodInStock p.1 = none
          ∨ ∃ s, dget r.foodInStock p.1 = some s ∧ s < p.2) →
        ((r.addOrder tn order).2).isSome) := by
  refine ⟨?_, ?_, ?_⟩
  · intro e he
    cases hv : validateOrder r.name r.foodInStock order with
    | none =>
      rw [addOrder_ok _ _ _ hv] at he
      cases he
    | some e' =>
      rw [addOrder_err _ _ _ _ hv] at he
      injection he with he
      subst he
      exact ⟨by rw [addOrder_err _ _ _ _ hv], validateOrder_some _ _ _ _ hv⟩
  · intro he
    cases hv : validateOrder r.name r.foodInStock order with
    | some e' =>
      rw [addOrder_err _ _ _ _ hv] at he
      cases he
    | none =>
      rw [addOrder_ok _ _ _ hv]
      exact ⟨rfl, fun c => applyDec_dval _ _ hnd c⟩
  · rintro ⟨p, hp, hbad⟩
    cases hv : validateOrder r.name r.foodInStock order with
    | some e' =>
      rw [addOrder_err _ _ _ _ hv]
      rfl
    | none =>
      exfalso
      rcases (validateOrder_none_iff _ _ _).mp hv p hp with ⟨s, hs, hle⟩
      rcases hbad with hbad | ⟨s', hs', hlt⟩
      · rw [hs] at hbad
        cases hbad
      · rw [hs] at hs'
        injection hs' with hss
        omega

/-- C6 witness: a concrete successful commit appends exactly one history
entry. -/
theorem addOrder_atomic_witness :
    (((Restaurant.init "r" 5 [(.normal, 3)]).addOrder "t"
        [(.normal, 2)]).1).orderHistory
      = (Restaurant.init "r" 5 [(.normal, 3)]).orderHistory
          ++ [("t", [(.normal, 2)])] :=
  ((addOrder_atomic (Restaurant.init "r" 5 [(.normal, 3)]) "t" [(.normal, 2)]
    (by decide)).2.1 (by decide)).1

/-- C9: `processOrder` drains the FIFO front-first: an empty FIFO ends the
loop with the restaurant list as is; if the front team's allocation
raises, the error propagates at once with the remaining teams left
unprocessed in the queue; if it succeeds, the remaining teams are
processed against the restaurant list as mutated by the front team's run
(later teams see the depleted stock). -/
theorem processOrder_fifo (t : Team) (ts : List Team) (rl : List Restaurant)
    (flag : Bool) :
    processOrder flag [] rl = ([], [], rl, none)
    ∧ (∀ t' rl' e, optimizeOrder t rl flag = (t', rl', some e) →
        processOrder flag (t :: ts) rl = ([t'], ts, rl', some e))
    ∧ (∀ t' rl', optimizeOrder t rl flag = (t', rl', none) →
        processOrder flag (t :: ts) rl =
          (t' :: (processOrder flag ts rl').1,
           (processOrder flag ts rl').2.1,
           (processOrder flag ts rl').2.2.1,
           (processOrder flag ts rl').2.2.2)) := by
  refine ⟨rfl, ?_, ?_⟩
  · intro t' rl' e h
    rw [processOrder, h]
  · intro t' rl' h
    rw [processOrder, h]

/-- C9 witness: a first team whose allocation fails aborts the drain,
leaving the second team queued and unprocessed. -/
theorem processOrder_fifo_witness :
    processOrder false [⟨"f", [(.normal, 1)], []⟩, ⟨"o", [], []⟩] []
      = ([⟨"f", [(.normal, 1)], []⟩], [⟨"o", [], []⟩], [],
         some (.unsatisfiable "f" .normal)) :=
  (processOrder_fifo ⟨"f", [(.normal, 1)], []⟩ [⟨"o", [], []⟩] [] false).2.1
    ⟨"f", [(.normal, 1)], []⟩ [] (.unsatisfiable "f" .normal) (by decide)

/-- C10: `addTeam` with an argument that is neither a `Team` nor a list
falls through both `isinstance` branches, leaving the FIFO unchanged and
raising nothing; a `Team` is appended; a list argument has all its
elements appended with no check that they are `Team`s. -/
theorem addTeam_isinstance (fifo : List PyVal) :
    (∀ v, isTeamVal v = false → isListVal v = false → addTeam fifo v = fifo)
    ∧ (∀ l, addTeam fifo (.listVal l) = fifo ++ l)
    ∧ (∀ t, addTeam fifo (.teamVal t) = fifo ++ [.teamVal t]) := by
  refine ⟨?_, fun l => rfl, fun t => rfl⟩
  intro v h1 h2
  cases v with
  | teamVal t => exact absurd h1 (by simp [isTeamVal])
  | listVal l => exact absurd h2 (by simp [isListVal])
  | strVal s => rfl
  | intVal n => rfl
  | noneVal => rfl

/-- C10 witness: an `int` argument leaves the FIFO unchanged, while a
list of non-`Team` values is appended wholesale. -/
theorem addTeam_isinstance_witness :
    addTeam [] (.intVal 0) = [] ∧ addTeam [] (.listVal [.intVal 3]) = [.intVal 3] :=
  ⟨(addTeam_isinstance []).1 (.intVal 0) rfl rfl,
   (addTeam_isinstance []).2.1 [.intVal 3]⟩

end MealOrder
